import Mathlib

/-!
Verification of `socket.io-go-emitter` (`src/emitter.go`).

The file shallowly embeds the emitter: Go `interface{}` values that flow
through the packet encoder are modelled by the inductive `Value`; the
`Emitter` struct, its constructor `NewEmitter`, the chainable configuration
methods (`Join`, `Volatile`, `Broadcast`, `In`, `To`, `Of`) and the emission
path (`Emit`, `EmitBinary`, the private `emit`, `HasBinary`) are translated
function by function.  Go maps are association lists; the distinction
between a Go `nil` map (never initialised) and an empty map matters for the
flag setters, so the `flags` field is an `Option`: `none` is the `nil` map.
Msgpack encoding is modelled structurally: the envelope is the 3-element
`List Value` handed to the encoder, and encoding succeeds exactly when no
value of an unsupported dynamic type occurs in it.  The Redis transport is
an oracle parameter `tres`: the outcome `PUBLISH` would report.
-/

set_option autoImplicit false

namespace SocketIO

/-- Go `interface{}` values that can reach the packet encoder: strings,
integers, booleans, raw byte sequences (`[]byte` / `bytes.Buffer`),
`[]interface{}` slices, `map[string]interface{}` maps, plus a marker for a
dynamic type msgpack cannot encode (e.g. a `func` or `chan` value). -/
inductive Value where
  | vStr (s : String)
  | vInt (n : Int)
  | vBool (b : Bool)
  | vBin (bs : List Nat)
  | vList (l : List Value)
  | vMap (m : List (String × Value))
  | vUnsupported (tag : String)

/-- `const UID = "emitter"` -/
def UID : String := "emitter"

/-- `const EVENT = 2` -/
def EVENT : Int := 2

/-- `const BINARY_EVENT = 5` -/
def BINARY_EVENT : Int := 5

/-- Go map read `m[k]` on an association list (keys are unique). -/
def mapLookup : List (String × Value) → String → Option Value
  | [], _ => none
  | (k, v) :: rest, key => if k = key then some v else mapLookup rest key

/-- Go map write `m[k] = v` on an association list. -/
def mapSet : List (String × Value) → String → Value → List (String × Value)
  | [], key, v => [(key, v)]
  | (k, w) :: rest, key, v =>
    if k = key then (k, v) :: rest else (k, w) :: mapSet rest key v

/-- Go `delete(m, k)` on an association list. -/
def mapDelete : List (String × Value) → String → List (String × Value)
  | [], _ => []
  | (k, w) :: rest, key =>
    if k = key then mapDelete rest key else (k, w) :: mapDelete rest key

/-- `EmitterOpts`: the configuration consumed by `NewEmitter`.  Only `Key`
influences the framing logic; the other fields configure the Redis pool. -/
structure EmitterOpts where
  Host : String
  Port : Int
  Key : String
  Protocol : String
  Addr : String

/-- The `Emitter` struct (the `redisPool` handle is replaced by the
transport oracle passed to `emit`).  `flags : none` models the Go `nil`
map, `flags : some m` an initialised map with entries `m`.  The embedded
`BroadcastOpts` fields are inlined. -/
structure Emitter where
  Key : String
  rooms : List String
  flags : Option (List (String × Value))
  broadcastChannel : String
  requestChannel : String

/-- `NewEmitter`: defaults `Key` to `"socket.io"`, precomputes the
broadcast/request channel names with `nsp = "/"`, and leaves `rooms` and
`flags` as their Go zero values (`nil` slice, `nil` map). -/
def NewEmitter (opts : EmitterOpts) : Emitter :=
  let key := if opts.Key = "" then "socket.io" else opts.Key
  let nsp := "/"
  { Key := key
    rooms := []
    flags := none
    broadcastChannel := key ++ "#" ++ nsp ++ "#"
    requestChannel := key ++ "-request#" ++ nsp ++ "#" }

/-- A Go map read `emitter.flags[k]`: reading a `nil` map is legal and
yields the zero value (`nil`, here `none`). -/
def flagsLookup (fl : Option (List (String × Value))) (k : String) : Option Value :=
  match fl with
  | none => none
  | some m => mapLookup m k

/-- A Go map write `emitter.flags[k] = v`.  Writing to a `nil` map is a
runtime panic (`assignment to entry in nil map`), modelled as `.error`. -/
def setFlag (e : Emitter) (k : String) (v : Value) : Except String Emitter :=
  match e.flags with
  | none => .error "assignment to entry in nil map"
  | some m => .ok { e with flags := some (mapSet m k v) }

/-- `func (emitter *Emitter) Join() *Emitter` -/
def Join (e : Emitter) : Except String Emitter :=
  setFlag e "join" (.vBool true)

/-- `func (emitter *Emitter) Volatile() *Emitter` -/
def Volatile (e : Emitter) : Except String Emitter :=
  setFlag e "volatile" (.vBool true)

/-- `func (emitter *Emitter) Broadcast() *Emitter` -/
def Broadcast (e : Emitter) : Except String Emitter :=
  setFlag e "broadcast" (.vBool true)

/-- `func (emitter *Emitter) In(room string) *Emitter`: appends `room` to
`rooms` unless already present. -/
def In (e : Emitter) (room : String) : Emitter :=
  if e.rooms.contains room then e
  else { e with rooms := e.rooms ++ [room] }

/-- `func (emitter *Emitter) To(room string) *Emitter`: alias of `In`. -/
def To (e : Emitter) (room : String) : Emitter :=
  In e room

/-- `func (emitter *Emitter) Of(namespace string) *Emitter`: stores the
namespace under the `"nsp"` flag (a write to the `flags` map). -/
def Of (e : Emitter) (nsp : String) : Except String Emitter :=
  setFlag e "nsp" (.vStr nsp)

mutual
/-- `func HasBinary(dataSlice ...interface{}) bool`, translated loop for
loop: scanning the argument list, a `[]byte`/`bytes.Buffer` returns `true`;
a slice or map recurses into each element/value with a one-argument call
(`hasBinaryIn`); any other scalar hits the `default` branch, which returns
`false` for the whole call, abandoning the remaining arguments. -/
def HasBinary : List Value → Bool
  | [] => false
  | d :: rest =>
    match d with
    | .vBin _ => true
    | .vList l => if hasBinaryIn l then true else HasBinary rest
    | .vMap m => if hasBinaryInMap m then true else HasBinary rest
    | _ => false
termination_by l => 2 * sizeOf l
decreasing_by
  all_goals simp_wf
  all_goals omega

/-- The inner `for _, d := range dataType { if HasBinary(d) { return true } }`
loop over slice elements. -/
def hasBinaryIn : List Value → Bool
  | [] => false
  | e :: es => if HasBinary [e] then true else hasBinaryIn es
termination_by l => 2 * sizeOf l + 1
decreasing_by
  all_goals simp_wf
  all_goals first
    | omega
    | (have h : 0 < sizeOf es := by
         cases es <;> simp only [List.nil.sizeOf_spec, List.cons.sizeOf_spec] <;> omega
       omega)
    | (have h : 0 < sizeOf rest := by
         cases rest <;> simp only [List.nil.sizeOf_spec, List.cons.sizeOf_spec] <;> omega
       omega)

/-- The inner `for _, v := range dataType { if HasBinary(v) { return true } }`
loop over map values. -/
def hasBinaryInMap : List (String × Value) → Bool
  | [] => false
  | (_, v) :: kvs => if HasBinary [v] then true else hasBinaryInMap kvs
termination_by m => 2 * sizeOf m + 1
decreasing_by
  all_goals simp_wf
  all_goals first
    | omega
    | (have h : 0 < sizeOf kvs := by
         cases kvs <;> simp only [List.nil.sizeOf_spec, List.cons.sizeOf_spec] <;> omega
       omega)
end

mutual
/-- Spec-side predicate (from the spec: "a payload containing at least one
raw byte sequence at any depth within sequences/mappings"): does a raw
byte sequence occur anywhere inside this value? -/
def specContainsBinary : Value → Bool
  | .vBin _ => true
  | .vList l => specContainsBinaryList l
  | .vMap m => specContainsBinaryMap m
  | _ => false

/-- Spec-side: a raw byte sequence occurs inside some element. -/
def specContainsBinaryList : List Value → Bool
  | [] => false
  | e :: es => specContainsBinary e || specContainsBinaryList es

/-- Spec-side: a raw byte sequence occurs inside some mapping value. -/
def specContainsBinaryMap : List (String × Value) → Bool
  | [] => false
  | (_, v) :: kvs => specContainsBinary v || specContainsBinaryMap kvs
end

mutual
/-- Msgpack encodability of one value: `enc.Encode` succeeds on the
strings, integers, booleans, byte sequences, slices and maps the emitter
builds, and fails exactly when a value of an unsupported dynamic type
occurs somewhere in the structure. -/
def encValueOk : Value → Bool
  | .vStr _ => true
  | .vInt _ => true
  | .vBool _ => true
  | .vBin _ => true
  | .vList l => encListOk l
  | .vMap m => encMapOk m
  | .vUnsupported _ => false

/-- Encodability of every element of a slice. -/
def encListOk : List Value → Bool
  | [] => true
  | v :: vs => encValueOk v && encListOk vs

/-- Encodability of every value of a map. -/
def encMapOk : List (String × Value) → Bool
  | [] => true
  | (_, v) :: kvs => encValueOk v && encMapOk kvs
end

/-- Result of one call to the private `emit`: the session state after the
call (the Go code mutates the receiver in place), the returned error, the
`(channel, envelope)` pair handed to `PUBLISH` (if reached), and what the
`publish` helper wrote to stderr. -/
structure EmitOutcome where
  state : Emitter
  err : Option String
  published : Option (String × List Value)
  stderrLog : Option String

/-- `func (emitter *Emitter) emit(packet map[string]interface{})`:
consumes the pending `nsp` flag into the packet, builds the 3-element
envelope `[UID, packet, {rooms, flags}]`, msgpack-encodes it (an error
aborts the call), clears `flags` to a fresh empty map, resolves the
channel (`broadcastChannel`, plus `room#` when exactly one room), and
publishes.  `tres` is the transport oracle: the error, if any, that the
Redis `PUBLISH` would report; `publish` only writes it to stderr. -/
def emit (e : Emitter) (packet : List (String × Value)) (tres : Option String) :
    EmitOutcome :=
  let withNsp :=
    match flagsLookup e.flags "nsp" with
    | some v => (mapSet packet "nsp" v, Option.map (fun m => mapDelete m "nsp") e.flags)
    | none => (packet, e.flags)
  let packet1 := withNsp.1
  let e1 := { e with flags := withNsp.2 }
  let options : List (String × Value) :=
    [("rooms", Value.vList (e1.rooms.map Value.vStr)),
     ("flags", Value.vMap (e1.flags.getD []))]
  let pack : List Value := [Value.vStr UID, Value.vMap packet1, Value.vMap options]
  if encListOk pack then
    let e2 := { e1 with flags := some [] }
    let channel :=
      if e2.rooms.length = 1 then e2.broadcastChannel ++ e2.rooms.headD "" ++ "#"
      else e2.broadcastChannel
    { state := e2, err := none, published := some (channel, pack), stderrLog := tres }
  else
    { state := e1, err := some "msgpack encode error", published := none,
      stderrLog := none }

/-- The packet map built by `Emit` (lines 159–169): `data` is the event
name followed by the arguments, `type` is `EVENT` unless `HasBinary` finds
a byte sequence in the arguments. -/
def EmitPacket (event : String) (data : List Value) : List (String × Value) :=
  let d := Value.vStr event :: data
  let eventType := if HasBinary data then BINARY_EVENT else EVENT
  [("type", Value.vInt eventType), ("data", Value.vList d)]

/-- `func (emitter *Emitter) Emit(event string, data ...interface{})` -/
def Emit (e : Emitter) (event : String) (data : List Value) (tres : Option String) :
    EmitOutcome :=
  emit e (EmitPacket event data) tres

/-- `func (emitter *Emitter) EmitBinary(event string, data ...interface{})`:
like `Emit` but the type is unconditionally `BINARY_EVENT`. -/
def EmitBinary (e : Emitter) (event : String) (data : List Value) (tres : Option String) :
    EmitOutcome :=
  let d := Value.vStr event :: data
  let packet : List (String × Value) :=
    [("type", Value.vInt BINARY_EVENT), ("data", Value.vList d)]
  emit e packet tres

/-- Default options: everything empty, so `NewEmitter` falls back to the
key `"socket.io"` and the default Redis address. -/
def sampleOpts : EmitterOpts := ⟨"", 0, "", "", ""⟩

/-- A session that has completed one successful emit, so that its `flags`
map is initialised (the only way the Go code ever initialises it). -/
def bootSession : Emitter :=
  (Emit (NewEmitter sampleOpts) "boot" [] none).state

/-- Extract the emitter from a flag-setter result, with a fallback. -/
def getOk (x : Except String Emitter) (d : Emitter) : Emitter :=
  match x with
  | .ok e => e
  | .error _ => d

/-- `bootSession` after `Of("admin")`: a session with a pending namespace. -/
def nspSession : Emitter :=
  getOk (Of bootSession "admin") bootSession

/-- `bootSession` after `Of("admin")` and `Broadcast()`: a pending
namespace plus one ordinary flag. -/
def nspBroadcastSession : Emitter :=
  getOk ((Of bootSession "admin").bind Broadcast) bootSession

/-! ### Lemmas about `HasBinary` -/

/-- Any list has positive `sizeOf`. -/
theorem sizeOf_list_pos {α : Type _} [SizeOf α] (l : List α) : 0 < sizeOf l := by
  cases l <;> simp only [List.nil.sizeOf_spec, List.cons.sizeOf_spec] <;> omega

/-- A one-argument `HasBinary` call — the shape of every recursive call the
Go code makes — agrees with the spec-side recursive predicate, and so do
the two inner loops.  Strong induction on `sizeOf`. -/
theorem hasBinary_spec_aux (n : Nat) :
    (∀ e : Value, sizeOf e < n → HasBinary [e] = specContainsBinary e) ∧
    (∀ l : List Value, sizeOf l < n → hasBinaryIn l = specContainsBinaryList l) ∧
    (∀ m : List (String × Value), sizeOf m < n →
      hasBinaryInMap m = specContainsBinaryMap m) := by
  induction n with
  | zero =>
    refine ⟨fun e he => ?_, fun l hl => ?_, fun m hm => ?_⟩ <;> omega
  | succ n ih =>
    obtain ⟨ihV, ihL, ihM⟩ := ih
    refine ⟨fun e he => ?_, fun l hl => ?_, fun m hm => ?_⟩
    · cases e with
      | vStr s => simp [HasBinary, specContainsBinary]
      | vInt k => simp [HasBinary, specContainsBinary]
      | vBool b => simp [HasBinary, specContainsBinary]
      | vBin bs => simp [HasBinary, specContainsBinary]
      | vUnsupported t => simp [HasBinary, specContainsBinary]
      | vList l =>
        have hl : sizeOf l < n := by
          have := he
          simp only [Value.vList.sizeOf_spec] at this
          omega
        rw [show HasBinary [Value.vList l] = hasBinaryIn l by
          simp [HasBinary]]
        rw [ihL l hl]
        simp [specContainsBinary]
      | vMap m =>
        have hm : sizeOf m < n := by
          have := he
          simp only [Value.vMap.sizeOf_spec] at this
          omega
        rw [show HasBinary [Value.vMap m] = hasBinaryInMap m by
          simp [HasBinary]]
        rw [ihM m hm]
        simp [specContainsBinary]
    · cases l with
      | nil => simp [hasBinaryIn, specContainsBinaryList]
      | cons e es =>
        have h1 : sizeOf e < n := by
          simp only [List.cons.sizeOf_spec] at hl
          have := sizeOf_list_pos es
          omega
        have h2 : sizeOf es < n := by
          simp only [List.cons.sizeOf_spec] at hl
          omega
        rw [show hasBinaryIn (e :: es) =
              (if HasBinary [e] then true else hasBinaryIn es) from by
            simp [hasBinaryIn]]
        rw [ihV e h1, ihL es h2]
        simp [specContainsBinaryList]
    · cases m with
      | nil => simp [hasBinaryInMap, specContainsBinaryMap]
      | cons kv kvs =>
        obtain ⟨k, v⟩ := kv
        have h1 : sizeOf v < n := by
          simp only [List.cons.sizeOf_spec, Prod.mk.sizeOf_spec] at hm
          have := sizeOf_list_pos kvs
          omega
        have h2 : sizeOf kvs < n := by
          simp only [List.cons.sizeOf_spec] at hm
          omega
        rw [show hasBinaryInMap ((k, v) :: kvs) =
              (if HasBinary [v] then true else hasBinaryInMap kvs) from by
            simp [hasBinaryInMap]]
        rw [ihV v h1, ihM kvs h2]
        simp [specContainsBinaryMap]

/-- One-argument `HasBinary` agrees with the spec-side predicate. -/
theorem hasBinary_single (e : Value) : HasBinary [e] = specContainsBinary e :=
  (hasBinary_spec_aux (sizeOf e + 1)).1 e (Nat.lt_succ_self _)

/-- The inner slice loop agrees with the spec-side predicate. -/
theorem hasBinaryIn_eq (l : List Value) :
    hasBinaryIn l = specContainsBinaryList l :=
  (hasBinary_spec_aux (sizeOf l + 1)).2.1 l (Nat.lt_succ_self _)

/-- The inner map loop agrees with the spec-side predicate. -/
theorem hasBinaryInMap_eq (m : List (String × Value)) :
    hasBinaryInMap m = specContainsBinaryMap m :=
  (hasBinary_spec_aux (sizeOf m + 1)).2.2 m (Nat.lt_succ_self _)

/-- The dynamic types the `HasBinary` switch handles without falling into
the `default` branch: `[]byte`/`bytes.Buffer`, slices, and maps.  Any other
argument makes the whole call return `false` on the spot. -/
def scanHandled : Value → Bool
  | .vBin _ => true
  | .vList _ => true
  | .vMap _ => true
  | _ => false

/-- If no argument contains a raw byte sequence anywhere, `HasBinary` is
`false`. -/
theorem hasBinary_false_of_clean (data : List Value)
    (h : ∀ v ∈ data, specContainsBinary v = false) : HasBinary data = false := by
  induction data with
  | nil => simp [HasBinary]
  | cons d rest ih =>
    have hd := h d (List.mem_cons_self d rest)
    have hrest : HasBinary rest = false :=
      ih fun v hv => h v (List.mem_cons_of_mem d hv)
    cases d with
    | vStr s => simp [HasBinary]
    | vInt k => simp [HasBinary]
    | vBool b => simp [HasBinary]
    | vUnsupported t => simp [HasBinary]
    | vBin bs => simp [specContainsBinary] at hd
    | vList l =>
      have : hasBinaryIn l = false := by
        rw [hasBinaryIn_eq]
        simpa [specContainsBinary] using hd
      simp [HasBinary, this, hrest]
    | vMap m =>
      have : hasBinaryInMap m = false := by
        rw [hasBinaryInMap_eq]
        simpa [specContainsBinary] using hd
      simp [HasBinary, this, hrest]

/-- If some argument contains a raw byte sequence, and every argument
before it is of a type the switch handles (byte sequence, slice or map),
`HasBinary` finds it. -/
theorem hasBinary_true_of_found (pre : List Value) (d : Value) (post : List Value)
    (hpre : ∀ x ∈ pre, scanHandled x = true)
    (hd : specContainsBinary d = true) :
    HasBinary (pre ++ d :: post) = true := by
  induction pre with
  | nil =>
    cases d with
    | vStr s => simp [specContainsBinary] at hd
    | vInt k => simp [specContainsBinary] at hd
    | vBool b => simp [specContainsBinary] at hd
    | vUnsupported t => simp [specContainsBinary] at hd
    | vBin bs => simp [HasBinary]
    | vList l =>
      have : hasBinaryIn l = true := by
        rw [hasBinaryIn_eq]
        simpa [specContainsBinary] using hd
      simp [HasBinary, this]
    | vMap m =>
      have : hasBinaryInMap m = true := by
        rw [hasBinaryInMap_eq]
        simpa [specContainsBinary] using hd
      simp [HasBinary, this]
  | cons x pre ih =>
    have hx := hpre x (List.mem_cons_self x pre)
    have ih2 : HasBinary (pre ++ d :: post) = true :=
      ih fun y hy => hpre y (List.mem_cons_of_mem x hy)
    cases x with
    | vStr s => simp [scanHandled] at hx
    | vInt k => simp [scanHandled] at hx
    | vBool b => simp [scanHandled] at hx
    | vUnsupported t => simp [scanHandled] at hx
    | vBin bs => simp [HasBinary]
    | vList l => cases hl : hasBinaryIn l <;> simp [HasBinary, hl, ih2]
    | vMap m => cases hm : hasBinaryInMap m <;> simp [HasBinary, hm, ih2]

/-- If `HasBinary` reports binary, some argument really contains a raw
byte sequence. -/
theorem hasBinary_sound (data : List Value) (h : HasBinary data = true) :
    ∃ v ∈ data, specContainsBinary v = true := by
  induction data with
  | nil => simp [HasBinary] at h
  | cons d rest ih =>
    cases d with
    | vStr s => simp [HasBinary] at h
    | vInt k => simp [HasBinary] at h
    | vBool b => simp [HasBinary] at h
    | vUnsupported t => simp [HasBinary] at h
    | vBin bs => exact ⟨.vBin bs, List.mem_cons_self _ _, by simp [specContainsBinary]⟩
    | vList l =>
      rw [show HasBinary (Value.vList l :: rest) =
            (if hasBinaryIn l then true else HasBinary rest) from by
          simp [HasBinary]] at h
      by_cases hl : hasBinaryIn l = true
      · refine ⟨.vList l, List.mem_cons_self _ _, ?_⟩
        rw [hasBinaryIn_eq] at hl
        simpa [specContainsBinary] using hl
      · simp [hl] at h
        obtain ⟨v, hv, hb⟩ := ih h
        exact ⟨v, List.mem_cons_of_mem _ hv, hb⟩
    | vMap m =>
      rw [show HasBinary (Value.vMap m :: rest) =
            (if hasBinaryInMap m then true else HasBinary rest) from by
          simp [HasBinary]] at h
      by_cases hm : hasBinaryInMap m = true
      · refine ⟨.vMap m, List.mem_cons_self _ _, ?_⟩
        rw [hasBinaryInMap_eq] at hm
        simpa [specContainsBinary] using hm
      · simp [hm] at h
        obtain ⟨v, hv, hb⟩ := ih h
        exact ⟨v, List.mem_cons_of_mem _ hv, hb⟩

/-! ### Association-list lemmas -/

/-- After `m[k] = v`, reading `k` yields `v`. -/
theorem mapSet_lookup_self (m : List (String × Value)) (k : String) (v : Value) :
    mapLookup (mapSet m k v) k = some v := by
  induction m with
  | nil => simp [mapSet, mapLookup]
  | cons kv rest ih =>
    obtain ⟨k1, v1⟩ := kv
    by_cases h : k1 = k <;> simp [mapSet, mapLookup, h, ih]

/-- After `m[k] = v`, reading any other key is unchanged. -/
theorem mapSet_lookup_ne (m : List (String × Value)) (k k2 : String) (v : Value)
    (h : ¬ k2 = k) : mapLookup (mapSet m k v) k2 = mapLookup m k2 := by
  have h' : ¬ k = k2 := fun hh => h hh.symm
  induction m with
  | nil => simp [mapSet, mapLookup, h']
  | cons kv rest ih =>
    obtain ⟨k1, v1⟩ := kv
    by_cases h1 : k1 = k
    · subst h1
      simp [mapSet, mapLookup, h']
    · simp [mapSet, mapLookup, h1, ih]

/-- After `delete(m, k)`, reading `k` yields nothing. -/
theorem mapDelete_lookup_self (m : List (String × Value)) (k : String) :
    mapLookup (mapDelete m k) k = none := by
  induction m with
  | nil => simp [mapDelete, mapLookup]
  | cons kv rest ih =>
    obtain ⟨k1, v1⟩ := kv
    by_cases h : k1 = k <;> simp [mapDelete, mapLookup, h, ih]

/-- After `delete(m, k)`, reading any other key is unchanged. -/
theorem mapDelete_lookup_ne (m : List (String × Value)) (k k2 : String)
    (h : ¬ k2 = k) : mapLookup (mapDelete m k) k2 = mapLookup m k2 := by
  have h' : ¬ k = k2 := fun hh => h hh.symm
  induction m with
  | nil => simp [mapDelete, mapLookup]
  | cons kv rest ih =>
    obtain ⟨k1, v1⟩ := kv
    by_cases h1 : k1 = k
    · subst h1
      simp [mapDelete, mapLookup, h', ih]
    · simp [mapDelete, mapLookup, h1, ih]

/-- Deleting an absent key is a no-op. -/
theorem mapDelete_of_absent (m : List (String × Value)) (k : String)
    (h : mapLookup m k = none) : mapDelete m k = m := by
  induction m with
  | nil => simp [mapDelete]
  | cons kv rest ih =>
    obtain ⟨k1, v1⟩ := kv
    by_cases h1 : k1 = k
    · simp [mapLookup, h1] at h
    · simp [mapLookup, h1] at h
      simp [mapDelete, h1, ih h]

/-! ### The shape of every published envelope -/

/-- Every envelope `emit` hands to `PUBLISH` is the 3-element sequence
`[UID, packet, {rooms, flags}]`; the packet carries an `nsp` key exactly
when one was pending in the flags; the serialized flags never contain
`nsp`; and all other packet keys are those of the packet passed in.
(The hypothesis `hno` records that the packets built by `Emit` and
`EmitBinary` carry no `nsp` key of their own.) -/
theorem emit_envelope (e : Emitter) (packet : List (String × Value))
    (tres : Option String) (ch : String) (pk : List Value)
    (hno : mapLookup packet "nsp" = none)
    (h : (emit e packet tres).published = some (ch, pk)) :
    ∃ p fl,
      pk = [Value.vStr UID, Value.vMap p,
            Value.vMap [("rooms", Value.vList (e.rooms.map Value.vStr)),
                        ("flags", Value.vMap fl)]] ∧
      ((mapLookup p "nsp").isSome ↔ (flagsLookup e.flags "nsp").isSome) ∧
      mapLookup fl "nsp" = none ∧
      (∀ k, ¬ k = "nsp" → mapLookup p k = mapLookup packet k) := by
  cases hf : flagsLookup e.flags "nsp" with
  | none =>
    simp only [emit, hf] at h
    split at h
    · simp only [EmitOutcome.mk.injEq] at h ⊢
      obtain ⟨hch, hpk⟩ := Prod.mk.injEq .. ▸ (Option.some.injEq .. ▸ h)
      refine ⟨packet, e.flags.getD [], ?_, ?_, ?_, fun k _ => rfl⟩
      · exact hpk.symm
      · simp [hno, hf]
      · cases hfl : e.flags with
        | none => simp [mapLookup]
        | some m =>
          simp only [hfl, Option.getD_some]
          simpa [flagsLookup, hfl] using hf
    · simp at h
  | some v =>
    obtain ⟨m, hm, hmv⟩ : ∃ m, e.flags = some m ∧ mapLookup m "nsp" = some v := by
      cases hfl : e.flags with
      | none => simp [flagsLookup, hfl] at hf
      | some m => exact ⟨m, rfl, by simpa [flagsLookup, hfl] using hf⟩
    rw [hm] at hf
    simp only [emit, hm, hf, Option.map_some', Option.getD_some] at h
    split at h
    · simp only [EmitOutcome.mk.injEq] at h
      obtain ⟨hch, hpk⟩ := Prod.mk.injEq .. ▸ (Option.some.injEq .. ▸ h)
      refine ⟨mapSet packet "nsp" v, mapDelete m "nsp", ?_, ?_, ?_, ?_⟩
      · exact hpk.symm
      · simp [mapSet_lookup_self, hf]
      · exact mapDelete_lookup_self m "nsp"
      · intro k hk
        exact mapSet_lookup_ne packet "nsp" k v hk
    · simp at h

/-- Full case analysis of one `emit` call: either encoding succeeds — no
error, the transport outcome goes to stderr, flags are reset to a fresh
empty map, everything else in the session is untouched, and the envelope
goes out on the room-scoped channel exactly when there is exactly one
room — or encoding fails — the error is returned, nothing is published,
and the session keeps its flags except that the pending `nsp` entry has
already been deleted. -/
theorem emit_char (e : Emitter) (packet : List (String × Value)) (tres : Option String) :
    ((emit e packet tres).err = none ∧
     (emit e packet tres).stderrLog = tres ∧
     (emit e packet tres).state = { e with flags := some [] } ∧
     ∃ pk, (emit e packet tres).published
        = some ((if e.rooms.length = 1
                 then e.broadcastChannel ++ e.rooms.headD "" ++ "#"
                 else e.broadcastChannel), pk))
  ∨ ((emit e packet tres).err = some "msgpack encode error" ∧
     (emit e packet tres).stderrLog = none ∧
     (emit e packet tres).published = none ∧
     (emit e packet tres).state
        = { e with flags := Option.map (fun m => mapDelete m "nsp") e.flags }) := by
  cases hf : flagsLookup e.flags "nsp" with
  | none =>
    have hdel : Option.map (fun m => mapDelete m "nsp") e.flags = e.flags := by
      cases hfl : e.flags with
      | none => rfl
      | some m =>
        simp only [Option.map_some']
        rw [mapDelete_of_absent m "nsp" (by simpa [flagsLookup, hfl] using hf)]
    simp only [emit, hf]
    split
    · exact Or.inl ⟨rfl, rfl, rfl, _, rfl⟩
    · refine Or.inr ⟨rfl, rfl, rfl, ?_⟩
      rw [hdel]
  | some v =>
    simp only [emit, hf]
    split
    · exact Or.inl ⟨rfl, rfl, rfl, _, rfl⟩
    · exact Or.inr ⟨rfl, rfl, rfl, rfl⟩

/-- The transport outcome influences only what `publish` writes to stderr:
returned error, session state and published envelope are identical for any
two transport outcomes. -/
theorem emit_ignores_tres (e : Emitter) (packet : List (String × Value))
    (t1 t2 : Option String) :
    (emit e packet t1).err = (emit e packet t2).err ∧
    (emit e packet t1).state = (emit e packet t2).state ∧
    (emit e packet t1).published = (emit e packet t2).published := by
  cases hf : flagsLookup e.flags "nsp" <;>
    simp only [emit, hf] <;> split <;> exact ⟨rfl, rfl, rfl⟩

/-! ### Claims -/

/-- C1, counterexample: the payload `["x", []byte{1}]` carries a raw byte
sequence as its second argument — after a non-matching sibling scalar —
yet `Emit` classifies the packet as `EVENT` (2), not `BINARY_EVENT` (5):
the `default` branch of `HasBinary` returns `false` for the whole call as
soon as it sees the string `"x"`. -/
theorem c1_counterexample :
    specContainsBinaryList [Value.vStr "x", Value.vBin [1]] = true ∧
    mapLookup (EmitPacket "ev" [Value.vStr "x", Value.vBin [1]]) "type"
      = some (Value.vInt EVENT) := by
  constructor
  · rfl
  · simp [EmitPacket, mapLookup, HasBinary]

/-- C1, amended: the classification is sound — `BINARY_EVENT` only when a
raw byte sequence really occurs — and detects a byte sequence at any depth
provided every top-level argument before the one containing it is itself a
byte sequence, slice or map; a payload with no byte sequence anywhere is
always `EVENT`, but a top-level scalar argument aborts the scan, so byte
sequences in later arguments may be missed (see the counterexample). -/
theorem c1_classification (event : String) (data : List Value) :
    ((∀ v ∈ data, specContainsBinary v = false) →
      mapLookup (EmitPacket event data) "type" = some (Value.vInt EVENT)) ∧
    (∀ pre d post, data = pre ++ d :: post →
      (∀ x ∈ pre, scanHandled x = true) →
      specContainsBinary d = true →
      mapLookup (EmitPacket event data) "type" = some (Value.vInt BINARY_EVENT)) ∧
    (mapLookup (EmitPacket event data) "type" = some (Value.vInt BINARY_EVENT) →
      ∃ v ∈ data, specContainsBinary v = true) := by
  have hlook : mapLookup (EmitPacket event data) "type"
      = some (Value.vInt (if HasBinary data then BINARY_EVENT else EVENT)) := by
    simp [EmitPacket, mapLookup]
  refine ⟨?_, ?_, ?_⟩
  · intro h
    rw [hlook, hasBinary_false_of_clean data h]
    simp
  · intro pre d post hdata hpre hd
    subst hdata
    rw [hlook, hasBinary_true_of_found pre d post hpre hd]
    simp
  · intro h
    rw [hlook] at h
    cases hb : HasBinary data with
    | true => exact hasBinary_sound data hb
    | false =>
      rw [hb] at h
      simp only [if_neg, Option.some.injEq, Value.vInt.injEq, EVENT,
        BINARY_EVENT, if_false] at h
      norm_num at h

/-- C1, witness: a byte sequence preceded only by a slice argument is
detected and yields `BINARY_EVENT`. -/
theorem c1_classification_witness :
    mapLookup (EmitPacket "ev" [Value.vList [Value.vStr "a"], Value.vBin [3]]) "type"
      = some (Value.vInt BINARY_EVENT) :=
  (c1_classification "ev" [Value.vList [Value.vStr "a"], Value.vBin [3]]).2.1
    [Value.vList [Value.vStr "a"]] (Value.vBin [3]) [] rfl
    (by intro x hx; rw [List.mem_singleton] at hx; subst hx; rfl) rfl

/-- C3, code bug: on a session fresh from the constructor every flag
setter panics at runtime: `NewEmitter` never initialises the `flags` map,
so `Join`, `Volatile`, `Broadcast` and `Of` all perform a Go assignment
to an entry in a nil map. -/
theorem c3_flag_setters_panic_on_fresh :
    (NewEmitter sampleOpts).flags = none ∧
    Join (NewEmitter sampleOpts) = Except.error "assignment to entry in nil map" ∧
    Volatile (NewEmitter sampleOpts) = Except.error "assignment to entry in nil map" ∧
    Broadcast (NewEmitter sampleOpts) = Except.error "assignment to entry in nil map" ∧
    Of (NewEmitter sampleOpts) "admin" = Except.error "assignment to entry in nil map" :=
  ⟨rfl, rfl, rfl, rfl, rfl⟩

/-- C6, confirmed: with key `"socket.io"` and the default namespace, zero
rooms publish to exactly `"socket.io#/#"`; the single room `"lobby"`
publishes to exactly `"socket.io#/#lobby#"`; two rooms `"a"`, `"b"` fall
back to `"socket.io#/#"` while both names are serialized in
`options.rooms`. -/
theorem c6_channel_names :
    (Emit (NewEmitter ⟨"", 0, "socket.io", "", ""⟩) "ev" [] none).published.map Prod.fst
      = some "socket.io#/#" ∧
    (Emit (In (NewEmitter ⟨"", 0, "socket.io", "", ""⟩) "lobby") "ev" [] none).published.map Prod.fst
      = some "socket.io#/#lobby#" ∧
    (Emit (In (In (NewEmitter ⟨"", 0, "socket.io", "", ""⟩) "a") "b") "ev" [] none).published
      = some ("socket.io#/#",
          [Value.vStr "emitter",
           Value.vMap [("type", Value.vInt 2), ("data", Value.vList [Value.vStr "ev"])],
           Value.vMap [("rooms", Value.vList [Value.vStr "a", Value.vStr "b"]),
                       ("flags", Value.vMap [])]]) := by
  have hp : EmitPacket "ev" [] = [("type", Value.vInt 2), ("data", Value.vList [Value.vStr "ev"])] := by
    simp [EmitPacket, HasBinary, EVENT]
  refine ⟨rfl, rfl, ?_⟩
  unfold Emit
  rw [hp]
  rfl

/-- C2, counterexample: `nspSession` has the namespace `"admin"` pending
(set by `Of`), yet the next emit publishes to `"socket.io#/#"` — which
does not begin with `"socket.io#admin#"`, and which begins with
`"socket.io#/#"` even though a namespace is pending.  The channel is the
`broadcastChannel` fixed at construction time with namespace `/`. -/
theorem c2_counterexample :
    Of bootSession "admin" = Except.ok nspSession ∧
    nspSession.Key = "socket.io" ∧
    flagsLookup nspSession.flags "nsp" = some (Value.vStr "admin") ∧
    (Emit nspSession "ev" [] none).published.map Prod.fst = some "socket.io#/#" ∧
    ("socket.io#/#").startsWith "socket.io#admin#" = false ∧
    ("socket.io#/#" : String) = "socket.io#/#" ++ "" :=
  ⟨rfl, rfl, rfl, rfl, by decide, by decide⟩

/-- C2, amended: the pending namespace recorded by `Of` never influences
the destination channel.  After `Of(n)` the session's `broadcastChannel`
and rooms are untouched and the namespace sits in the `nsp` flag; every
publish goes to the construction-time `broadcastChannel` (optionally
extended by a single room), which for every constructor-built session is
`"{key}#/#"`. -/
theorem c2_channel_ignores_pending_namespace (e e2 : Emitter) (nsp : String)
    (packet : List (String × Value)) (tres : Option String)
    (hOf : Of e nsp = Except.ok e2) :
    e2.broadcastChannel = e.broadcastChannel ∧
    e2.rooms = e.rooms ∧
    flagsLookup e2.flags "nsp" = some (Value.vStr nsp) ∧
    (∀ ch pk, (emit e2 packet tres).published = some (ch, pk) →
      ch = e.broadcastChannel ∨ ch = e.broadcastChannel ++ e.rooms.headD "" ++ "#") ∧
    (∀ opts : EmitterOpts, (NewEmitter opts).broadcastChannel
      = (if opts.Key = "" then "socket.io" else opts.Key) ++ "#/#") := by
  obtain ⟨m, hm, he2⟩ : ∃ m, e.flags = some m ∧
      e2 = { e with flags := some (mapSet m "nsp" (Value.vStr nsp)) } := by
    cases hfl : e.flags with
    | none => simp [Of, setFlag, hfl] at hOf
    | some m =>
      refine ⟨m, rfl, ?_⟩
      simpa [Of, setFlag, hfl, eq_comm] using hOf
  subst he2
  refine ⟨rfl, rfl, ?_, ?_, ?_⟩
  · simp [flagsLookup, mapSet_lookup_self]
  · intro ch pk h
    rcases emit_char { e with flags := some (mapSet m "nsp" (Value.vStr nsp)) } packet tres
      with ⟨_, _, _, pk0, hpub⟩ | ⟨_, _, hpub, _⟩
    · rw [hpub] at h
      simp only [Option.some.injEq, Prod.mk.injEq] at h
      obtain ⟨hch, _⟩ := h
      by_cases hr : e.rooms.length = 1
      · right
        rw [← hch]
        simp [hr]
      · left
        rw [← hch]
        simp [hr]
    · rw [hpub] at h
      exact absurd h (by simp)
  · intro opts
    simp [NewEmitter, String.append_assoc]

/-- C2, witness: instantiating the amended theorem on `bootSession`,
where `Of("admin")` succeeds. -/
theorem c2_channel_witness :
    nspSession.broadcastChannel = bootSession.broadcastChannel ∧
    flagsLookup nspSession.flags "nsp" = some (Value.vStr "admin") :=
  ⟨(c2_channel_ignores_pending_namespace bootSession nspSession "admin" [] none rfl).1,
   (c2_channel_ignores_pending_namespace bootSession nspSession "admin" [] none rfl).2.2.1⟩

/-- C4, counterexample: a serialization failure on a session with a
pending namespace does return the error, publishes nothing and keeps the
other flags — but the `nsp` entry is already deleted from the flags map
(it was consumed into the packet before the encoding attempt), so the
session state is not exactly as before the call. -/
theorem c4_counterexample :
    flagsLookup nspBroadcastSession.flags "nsp" = some (Value.vStr "admin") ∧
    (Emit nspBroadcastSession "ev" [Value.vUnsupported "chan"] none).err
      = some "msgpack encode error" ∧
    (Emit nspBroadcastSession "ev" [Value.vUnsupported "chan"] none).published = none ∧
    flagsLookup (Emit nspBroadcastSession "ev" [Value.vUnsupported "chan"] none).state.flags
      "nsp" = none ∧
    flagsLookup (Emit nspBroadcastSession "ev" [Value.vUnsupported "chan"] none).state.flags
      "broadcast" = some (Value.vBool true) :=
  ⟨rfl, rfl, rfl, rfl, rfl⟩

/-- C4, amended: if serialization of the envelope fails, the error is
returned, nothing is published, rooms and the rest of the session are
unchanged and the flags are not cleared — except that the pending `nsp`
entry has already been removed from the flags map (it was moved into the
packet before encoding); every other flag entry is preserved. -/
theorem c4_encode_failure_aborts (e : Emitter) (event : String) (data : List Value)
    (tres : Option String)
    (herr : (Emit e event data tres).err ≠ none) :
    (Emit e event data tres).err = some "msgpack encode error" ∧
    (Emit e event data tres).published = none ∧
    (Emit e event data tres).stderrLog = none ∧
    (Emit e event data tres).state.rooms = e.rooms ∧
    (Emit e event data tres).state.Key = e.Key ∧
    (Emit e event data tres).state.broadcastChannel = e.broadcastChannel ∧
    (Emit e event data tres).state.flags
      = Option.map (fun m => mapDelete m "nsp") e.flags ∧
    (∀ k, ¬ k = "nsp" →
      flagsLookup (Emit e event data tres).state.flags k = flagsLookup e.flags k) := by
  unfold Emit
  rcases emit_char e (EmitPacket event data) tres with ⟨hok, _⟩ | hfail
  · exact absurd hok herr
  · obtain ⟨h1, h2, h3, h4⟩ := hfail
    refine ⟨h1, h3, h2, by rw [h4], by rw [h4], by rw [h4], by rw [h4], ?_⟩
    intro k hk
    rw [h4]
    cases hfl : e.flags with
    | none => simp [flagsLookup]
    | some m => simp [flagsLookup, mapDelete_lookup_ne m "nsp" k hk]

/-- C4, witness: the amended theorem applied to a failing emit on
`nspBroadcastSession`. -/
theorem c4_encode_failure_witness :
    (Emit nspBroadcastSession "ev" [Value.vUnsupported "chan"] none).published = none ∧
    (Emit nspBroadcastSession "ev" [Value.vUnsupported "chan"] none).state.rooms
      = nspBroadcastSession.rooms :=
  ⟨(c4_encode_failure_aborts nspBroadcastSession "ev" [Value.vUnsupported "chan"] none
      (fun h => Option.noConfusion ((rfl :
        (Emit nspBroadcastSession "ev" [Value.vUnsupported "chan"] none).err
          = some "msgpack encode error").symm.trans h))).2.1,
   (c4_encode_failure_aborts nspBroadcastSession "ev" [Value.vUnsupported "chan"] none
      (fun h => Option.noConfusion ((rfl :
        (Emit nspBroadcastSession "ev" [Value.vUnsupported "chan"] none).err
          = some "msgpack encode error").symm.trans h))).2.2.2.1⟩

/-- C5, confirmed: every published envelope — from `Emit` or `EmitBinary`
— is the 3-element sequence `[senderId, packet, options]` with
`senderId = "emitter"`; the packet's `type` is 2 or 5 (always 5 for
`EmitBinary`), its `data` is the event name followed by the arguments, it
carries an `nsp` key exactly when a namespace was pending, and the
serialized `options.flags` never contains the `nsp` entry. -/
theorem c5_envelope_shape (e : Emitter) (event : String) (data : List Value)
    (tres : Option String) :
    (∀ ch pk, (Emit e event data tres).published = some (ch, pk) →
      ∃ p fl,
        pk = [Value.vStr UID, Value.vMap p,
              Value.vMap [("rooms", Value.vList (e.rooms.map Value.vStr)),
                          ("flags", Value.vMap fl)]] ∧
        (mapLookup p "type" = some (Value.vInt EVENT) ∨
         mapLookup p "type" = some (Value.vInt BINARY_EVENT)) ∧
        mapLookup p "data" = some (Value.vList (Value.vStr event :: data)) ∧
        ((mapLookup p "nsp").isSome ↔ (flagsLookup e.flags "nsp").isSome) ∧
        mapLookup fl "nsp" = none) ∧
    (∀ ch pk, (EmitBinary e event data tres).published = some (ch, pk) →
      ∃ p fl,
        pk = [Value.vStr UID, Value.vMap p,
              Value.vMap [("rooms", Value.vList (e.rooms.map Value.vStr)),
                          ("flags", Value.vMap fl)]] ∧
        mapLookup p "type" = some (Value.vInt BINARY_EVENT) ∧
        mapLookup p "data" = some (Value.vList (Value.vStr event :: data)) ∧
        ((mapLookup p "nsp").isSome ↔ (flagsLookup e.flags "nsp").isSome) ∧
        mapLookup fl "nsp" = none) := by
  constructor
  · intro ch pk h
    obtain ⟨p, fl, hpk, hiff, hfl, hpres⟩ :=
      emit_envelope e (EmitPacket event data) tres ch pk
        (by simp [EmitPacket, mapLookup]) h
    refine ⟨p, fl, hpk, ?_, ?_, hiff, hfl⟩
    · rw [hpres "type" (by decide)]
      rw [show mapLookup (EmitPacket event data) "type"
            = some (Value.vInt (if HasBinary data then BINARY_EVENT else EVENT)) from by
          simp [EmitPacket, mapLookup]]
      by_cases hb : HasBinary data = true
      · right
        simp [hb]
      · left
        simp [hb]
    · rw [hpres "data" (by decide)]
      simp [EmitPacket, mapLookup]
  · intro ch pk h
    obtain ⟨p, fl, hpk, hiff, hfl, hpres⟩ :=
      emit_envelope e
        [("type", Value.vInt BINARY_EVENT), ("data", Value.vList (Value.vStr event :: data))]
        tres ch pk (by simp [mapLookup]) h
    refine ⟨p, fl, hpk, ?_, ?_, hiff, hfl⟩
    · rw [hpres "type" (by decide)]
      simp [mapLookup]
    · rw [hpres "data" (by decide)]
      simp [mapLookup]

/-- C5, witness: the envelope of a concrete successful emit has the
asserted shape. -/
theorem c5_envelope_witness :
    ∃ p fl,
      ([Value.vStr UID,
        Value.vMap [("type", Value.vInt 2), ("data", Value.vList [Value.vStr "chat"])],
        Value.vMap [("rooms", Value.vList []), ("flags", Value.vMap [])]] : List Value)
        = [Value.vStr UID, Value.vMap p,
           Value.vMap [("rooms", Value.vList (bootSession.rooms.map Value.vStr)),
                       ("flags", Value.vMap fl)]] ∧
      (mapLookup p "type" = some (Value.vInt EVENT) ∨
       mapLookup p "type" = some (Value.vInt BINARY_EVENT)) ∧
      mapLookup p "data" = some (Value.vList [Value.vStr "chat"]) ∧
      ((mapLookup p "nsp").isSome ↔ (flagsLookup bootSession.flags "nsp").isSome) ∧
      mapLookup fl "nsp" = none :=
  (c5_envelope_shape bootSession "chat" [] none).1 "socket.io#/#"
    [Value.vStr UID,
     Value.vMap [("type", Value.vInt 2), ("data", Value.vList [Value.vStr "chat"])],
     Value.vMap [("rooms", Value.vList []), ("flags", Value.vMap [])]]
    (by
      have hp : EmitPacket "chat" []
          = [("type", Value.vInt 2), ("data", Value.vList [Value.vStr "chat"])] := by
        simp [EmitPacket, HasBinary, EVENT]
      unfold Emit
      rw [hp]
      rfl)

/-- C7, confirmed: after any successful emit the flags map is a fresh
empty map and the rooms list is exactly what it was before the call. -/
theorem c7_flags_cleared_rooms_kept (e : Emitter) (event : String) (data : List Value)
    (tres : Option String) (h : (Emit e event data tres).err = none) :
    (Emit e event data tres).state.flags = some [] ∧
    (Emit e event data tres).state.rooms = e.rooms := by
  unfold Emit at h ⊢
  rcases emit_char e (EmitPacket event data) tres with ⟨_, _, hst, _⟩ | ⟨herr, _⟩
  · constructor
    · rw [hst]
    · rw [hst]
  · rw [herr] at h
    cases h

/-- C7, witness: a concrete successful emit leaves empty flags and the
same rooms. -/
theorem c7_witness :
    (Emit bootSession "chat" [] none).state.flags = some [] ∧
    (Emit bootSession "chat" [] none).state.rooms = bootSession.rooms :=
  c7_flags_cleared_rooms_kept bootSession "chat" [] none rfl

/-- C8, confirmed: `In` adds a room only when absent (appending at the
end, preserving first-insertion order), is idempotent, preserves
`Nodup`, and `To` is its alias; no other operation (`setFlag`, hence the
flag setters, or `emit`) ever changes the rooms list, so rooms never
acquire duplicates across any sequence of operations. -/
theorem c8_withRoom_idempotent (e : Emitter) (room : String) :
    (e.rooms.contains room = true → In e room = e) ∧
    (e.rooms.contains room = false → (In e room).rooms = e.rooms ++ [room]) ∧
    In (In e room) room = In e room ∧
    (e.rooms.Nodup → (In e room).rooms.Nodup) ∧
    To e room = In e room ∧
    (∀ k v e2, setFlag e k v = Except.ok e2 → e2.rooms = e.rooms) ∧
    (∀ packet tres, (emit e packet tres).state.rooms = e.rooms) := by
  refine ⟨?_, ?_, ?_, ?_, rfl, ?_, ?_⟩
  · intro h
    have hm : room ∈ e.rooms := by simpa using h
    simp [In, hm]
  · intro h
    have hm : room ∉ e.rooms := by simpa using h
    simp [In, hm]
  · by_cases hm : room ∈ e.rooms
    · have h1 : In e room = e := by simp [In, hm]
      rw [h1]
      exact h1
    · have h2 : (In e room).rooms = e.rooms ++ [room] := by simp [In, hm]
      have h3 : (In e room).rooms.contains room = true := by
        rw [h2]
        simp
      show (if (In e room).rooms.contains room = true then In e room
            else { In e room with rooms := (In e room).rooms ++ [room] }) = In e room
      rw [if_pos h3]
  · intro hnd
    by_cases hm : room ∈ e.rooms
    · simpa [In, hm] using hnd
    · rw [show (In e room).rooms = e.rooms ++ [room] from by simp [In, hm]]
      simp [List.nodup_append, hnd, hm]
  · intro k v e2 hsf
    cases hfl : e.flags with
    | none => simp [setFlag, hfl] at hsf
    | some m =>
      simp only [setFlag, hfl, Except.ok.injEq] at hsf
      rw [← hsf]
  · intro packet tres
    rcases emit_char e packet tres with ⟨_, _, hst, _⟩ | ⟨_, _, _, hst⟩ <;> rw [hst]

/-- C8, witness: adding `"lobby"` twice yields a single entry, appended
at the end. -/
theorem c8_withRoom_witness :
    In (In (NewEmitter sampleOpts) "lobby") "lobby" = In (NewEmitter sampleOpts) "lobby" ∧
    (In (NewEmitter sampleOpts) "lobby").rooms = (NewEmitter sampleOpts).rooms ++ ["lobby"] :=
  ⟨(c8_withRoom_idempotent (In (NewEmitter sampleOpts) "lobby") "lobby").1 rfl,
   (c8_withRoom_idempotent (NewEmitter sampleOpts) "lobby").2.1 rfl⟩

/-- C9, confirmed: once the envelope serializes, the returned error is
`nil` no matter what the transport reports; a publish failure is only
written to stderr and the session state — flags freshly cleared — is the
same as on a successful publish. -/
theorem c9_publish_failure_not_propagated (e : Emitter) (event : String)
    (data : List Value) (msg : String)
    (h : (Emit e event data none).err = none) :
    (Emit e event data (some msg)).err = none ∧
    (Emit e event data (some msg)).stderrLog = some msg ∧
    (Emit e event data (some msg)).state = (Emit e event data none).state ∧
    (Emit e event data (some msg)).state.flags = some [] ∧
    ((Emit e event data (some msg)).published).isSome = true := by
  unfold Emit at h ⊢
  obtain ⟨herr, hstate, hpub⟩ := emit_ignores_tres e (EmitPacket event data) (some msg) none
  rcases emit_char e (EmitPacket event data) (some msg) with ⟨h1, h2, h3, pk, h4⟩ | ⟨h1, _⟩
  · refine ⟨h1, h2, hstate, ?_, ?_⟩
    · rw [h3]
    · rw [h4]
      rfl
  · have hcontra := herr.trans h
    rw [h1] at hcontra
    cases hcontra

/-- C9, witness: a concrete emit with a failing transport still returns
no error and logs the failure to stderr. -/
theorem c9_witness :
    (Emit bootSession "x" [] (some "conn refused")).err = none ∧
    (Emit bootSession "x" [] (some "conn refused")).stderrLog = some "conn refused" :=
  ⟨(c9_publish_failure_not_propagated bootSession "x" [] "conn refused" rfl).1,
   (c9_publish_failure_not_propagated bootSession "x" [] "conn refused" rfl).2.1⟩

/-- C10, confirmed: an emit on a session fresh from the constructor never
fails on session state — reading the uninitialised (`nil`) flags map is
safe — and, whenever the arguments themselves are encodable, publishes an
envelope with empty `options.rooms`, empty `options.flags` and no `nsp`
key, whose packet data is the event name followed by the arguments, on
the base channel `"{key}#/#"`. -/
theorem c10_fresh_emit (opts : EmitterOpts) (event : String) (data : List Value)
    (tres : Option String) (henc : encListOk data = true) :
    (Emit (NewEmitter opts) event data tres).err = none ∧
    (Emit (NewEmitter opts) event data tres).published
      = some ((NewEmitter opts).broadcastChannel,
          [Value.vStr UID,
           Value.vMap [("type", Value.vInt (if HasBinary data then BINARY_EVENT else EVENT)),
                       ("data", Value.vList (Value.vStr event :: data))],
           Value.vMap [("rooms", Value.vList []), ("flags", Value.vMap [])]]) ∧
    (NewEmitter opts).broadcastChannel
      = (if opts.Key = "" then "socket.io" else opts.Key) ++ "#/#" := by
  refine ⟨?_, ?_, ?_⟩
  · simp [Emit, emit, EmitPacket, NewEmitter, flagsLookup, encListOk, encValueOk,
      encMapOk, henc]
  · simp [Emit, emit, EmitPacket, NewEmitter, flagsLookup, encListOk, encValueOk,
      encMapOk, henc, UID]
  · simp [NewEmitter, String.append_assoc]

/-- C10, witness: a concrete fresh emit with an encodable argument
succeeds even with a failing transport. -/
theorem c10_witness :
    (Emit (NewEmitter sampleOpts) "hello" [Value.vStr "x"] (some "boom")).err = none ∧
    encListOk [Value.vStr "x"] = true :=
  ⟨(c10_fresh_emit sampleOpts "hello" [Value.vStr "x"] (some "boom") rfl).1, rfl⟩

end SocketIO
